import Mathlib

/-!
Verification of the go-netty event-propagation pipeline, exception
normalization and listener lifecycle.

The Go sources are embedded shallowly:

* `pipeline.go` — the pipeline is a doubly linked list of
  `handlerContext` nodes bounded by a head and a tail sentinel.  Pointers
  are modelled by a heap `nodes : Nat → handlerContext` together with an
  allocation counter `count`; node ids play the role of addresses
  (`head` is id 0, `tail` is id 1, fresh nodes get the current value of
  `count`).  `nil` pointers are `Option.none`.  Go's `utils.Assert`
  panics on configuration errors; operations that can fail that way are
  embedded in `Except PipeErr`.
* `exception.go` — `AsException` over a small universe of Go values.
* `bootstrap.go` — `listener.Sync`'s pre-loop phase, with the external
  collaborators (`transport.ParseOptions`, `transportFactory.Listen`)
  supplied as an environment of oracles.
-/

namespace GoNetty

/-- A `Handler` implements at least one of six capability interfaces
(Active, Inbound, Outbound, Exception, Inactive, Event).  The Go
type-switch over interface implementations is modelled by six capability
flags; `tag` stands for the handler's identity (used by the instrumented
visitation-order tests). -/
structure Handler where
  tag : Nat
  activeCap : Bool
  inboundCap : Bool
  outboundCap : Bool
  exceptionCap : Bool
  inactiveCap : Bool
  eventCap : Bool
deriving DecidableEq, Repr

/-- `true` iff the handler implements at least one of the six
capability interfaces (the disjunction of the six type-switch cases of
`checkHandler` in `pipeline.go`). -/
def hasCapability (h : Handler) : Bool :=
  h.activeCap || h.inboundCap || h.outboundCap || h.exceptionCap || h.inactiveCap || h.eventCap

/-- The head sentinel's handler (`headHandler` in the source; its
concrete behaviour is outside the pipeline structure, only its identity
matters here). -/
def headHandler : Handler := ⟨0, true, true, true, true, true, true⟩

/-- The tail sentinel's handler (`tailHandler` in the source). -/
def tailHandler : Handler := ⟨1, true, true, true, true, true, true⟩

/-- One chain node: `handlerContext` wraps one handler plus its
`prev`/`next` links (node ids; `none` is Go's `nil`). The `pipeline`
back-reference field carries no information in this model and is
omitted. -/
structure handlerContext where
  handler : Handler
  prev : Option Nat
  next : Option Nat
deriving DecidableEq, Repr

/-- The `pipeline` struct: a heap of nodes, the head and tail sentinel
ids, the allocation counter, the attached channel (`none` = Go `nil`)
and the `size` field. -/
structure pipeline where
  nodes : Nat → handlerContext
  head : Nat
  tail : Nat
  count : Nat
  channel : Option Nat
  size : Nat

/-- Configuration errors: `pipeline.go` raises them through
`utils.Assert` / `utils.AssertIf` (a panic); they are embedded as
`Except` errors. -/
inductive PipeErr where
  | unrecognizedHandler (index : Nat) (tag : Nat)
  | invalidPosition (position : Int)
  | alreadyAttached
deriving DecidableEq, Repr

/-- Default heap content for unallocated ids. -/
def defaultContext : handlerContext := ⟨headHandler, none, none⟩

/-- `NewPipelineWith`: head and tail sentinels linked to each other,
`size = 2`. -/
def NewPipelineWith : pipeline :=
  let base : Nat → handlerContext := fun _ => defaultContext
  let n0 := Function.update base 0 ⟨headHandler, none, some 1⟩
  let n1 := Function.update n0 1 ⟨tailHandler, some 0, none⟩
  { nodes := n1, head := 0, tail := 1, count := 2, channel := none, size := 2 }

/-- `checkHandler`'s loop with its running index: the first handler
implementing none of the six capabilities aborts with
`unrecognized Handler: index:type` (index and identity recorded in the
error). -/
def checkHandlerFrom : Nat → List Handler → Except PipeErr Unit
  | _, [] => .ok ()
  | index, h :: rest =>
    if hasCapability h then checkHandlerFrom (index + 1) rest
    else .error (.unrecognizedHandler index h.tag)

/-- `checkHandler(handlers...)` from `pipeline.go`. -/
def checkHandler (handlers : List Handler) : Except PipeErr Unit :=
  checkHandlerFrom 0 handlers

/-- The common splice step: allocate a fresh node carrying `h` and wire
it immediately after node `cur` (this is the loop body of `AddHandler`;
`addFirst` is exactly this step at `cur = head`).  Mirrors the Go
pointer updates: read `oldNext`, allocate the node with
`prev = cur, next = oldNext`, set `cur.next` and `oldNext.prev` to the
new node, increment `size`. -/
def insertAfterOne (p : pipeline) (cur : Nat) (h : Handler) : pipeline :=
  let oldNext := ((p.nodes cur).next).getD 0
  let newId := p.count
  let n1 := Function.update p.nodes newId ⟨h, some cur, some oldNext⟩
  let n2 := Function.update n1 cur { n1 cur with next := some newId }
  let n3 := Function.update n2 oldNext { n2 oldNext with prev := some newId }
  { p with nodes := n3, count := newId + 1, size := p.size + 1 }

/-- `pipeline.addFirst`: splice one node right after the head sentinel
(`oldNext := head.next; head.next := new{prev: head, next: oldNext};
oldNext.prev := new; size++`). -/
def addFirst (p : pipeline) (h : Handler) : pipeline :=
  insertAfterOne p p.head h

/-- `pipeline.addLast`: splice one node right before the tail sentinel
(`oldPrev := tail.prev; tail.prev := new{prev: oldPrev, next: tail};
oldPrev.next := new; size++`), in the source's update order. -/
def addLast (p : pipeline) (h : Handler) : pipeline :=
  let oldPrev := ((p.nodes p.tail).prev).getD 0
  let newId := p.count
  let n1 := Function.update p.nodes newId ⟨h, some oldPrev, some p.tail⟩
  let n2 := Function.update n1 p.tail { n1 p.tail with prev := some newId }
  let n3 := Function.update n2 oldPrev { n2 oldPrev with next := some newId }
  { p with nodes := n3, count := newId + 1, size := p.size + 1 }

/-- `pipeline.AddFirst`: validate the whole batch, then `addFirst` each
handler in turn. -/
def AddFirst (p : pipeline) (handlers : List Handler) : Except PipeErr pipeline := do
  checkHandler handlers
  pure (handlers.foldl addFirst p)

/-- `pipeline.AddLast`: validate the whole batch, then `addLast` each
handler in turn. -/
def AddLast (p : pipeline) (handlers : List Handler) : Except PipeErr pipeline := do
  checkHandler handlers
  pure (handlers.foldl addLast p)

/-- The walking loop `for i := 0; i < position; i++ { cur = cur.next }`
shared by `AddHandler` and `ContextAt`; the loop runs `n` times where
`n` is the non-negative part of `position`. -/
def walkNext (p : pipeline) : Nat → Nat → Nat
  | cur, 0 => cur
  | cur, n + 1 => walkNext p (((p.nodes cur).next).getD 0) n

/-- The insertion loop of `AddHandler`: splice each handler after the
current node and advance the current node to the just-inserted one
(whose id is the pre-insertion allocation counter). -/
def insertAfterLoop (p : pipeline) (cur : Nat) : List Handler → pipeline
  | [] => p
  | h :: rest => insertAfterLoop (insertAfterOne p cur h) p.count rest

/-- `pipeline.AddHandler(position, handlers...)`: validate the batch,
fail on `position >= size`, delegate `-1` and `size-1` to `AddLast`,
otherwise walk `position` links forward from head and insert after the
node reached. -/
def AddHandler (p : pipeline) (position : Int) (handlers : List Handler) :
    Except PipeErr pipeline := do
  checkHandler handlers
  if (p.size : Int) ≤ position then throw (.invalidPosition position)
  else if position = -1 ∨ position = (p.size : Int) - 1 then AddLast p handlers
  else pure (insertAfterLoop p (walkNext p p.head position.toNat) handlers)

/-- `pipeline.ContextAt(position)`: `nil` for `-1` or `position ≥ size`,
otherwise the node reached by walking `position` links forward from
head (for `position ≤ -2` the loop body never runs and the head
sentinel itself is returned). -/
def ContextAt (p : pipeline) (position : Int) : Option Nat :=
  if position = -1 ∨ (p.size : Int) ≤ position then none
  else some (walkNext p p.head position.toNat)

/-- The handler carried by the context returned by `ContextAt`. -/
def handlerAt (p : pipeline) (position : Int) : Option Handler :=
  (ContextAt p position).map fun i => (p.nodes i).handler

/-- `pipeline.Size`. -/
def Size (p : pipeline) : Nat := p.size

/-- `pipeline.ServeChannel(channel)`: fail if a channel is already
attached, otherwise record the channel and instruct it to begin serving
(`channel.serveChannel()`); the returned list records which channels
were instructed to serve. -/
def ServeChannel (p : pipeline) (channel : Nat) : Except PipeErr (pipeline × List Nat) :=
  if p.channel.isSome then .error .alreadyAttached
  else .ok ({ p with channel := some channel }, [channel])

/-- Follow `step` links from `cur`, recording every node visited, until
a `nil` link; `fuel` bounds the walk (callers pass the allocation
counter, an upper bound on the chain length). -/
def visitFrom (step : Nat → Option Nat) : Nat → Nat → List Nat
  | _, 0 => []
  | cur, fuel + 1 =>
    cur :: (match step cur with
      | none => []
      | some nxt => visitFrom step nxt fuel)

/-- `pipeline.FireChannelRead(message)` starts at the head sentinel
(`p.head.HandleRead(message)`).  The chain walking itself
(`handlerContext.HandleRead`) is Modelled from the spec: each visited
context invokes its handler when the capability matches, is otherwise
transparently skipped, and forwards to the next context toward the
tail; with instrumented always-forwarding handlers every context is
visited, so the traversal is the list of contexts reached by following
`next` links from head.  The message does not influence the visitation
order. -/
def FireChannelReadVisits (p : pipeline) (message : Nat) : List Nat :=
  let _ := message
  visitFrom (fun i => (p.nodes i).next) p.head p.count

/-- `pipeline.FireChannelWrite(message)` starts at the tail sentinel
(`p.tail.HandleWrite(message)`).  The chain walking
(`handlerContext.HandleWrite`) is Modelled from the spec: outbound
traversal forwards toward the head, so the traversal is the list of
contexts reached by following `prev` links from tail. -/
def FireChannelWriteVisits (p : pipeline) (message : Nat) : List Nat :=
  let _ := message
  visitFrom (fun i => (p.nodes i).prev) p.tail p.count

/-- The handler identities along a visitation sequence (what the
instrumented handlers of the spec's test record). -/
def visitHandlerTags (p : pipeline) (visits : List Nat) : List Nat :=
  visits.map fun i => ((p.nodes i).handler).tag

/-! ## Exception normalization (`exception.go`) -/

/-- The concrete `exception` struct: an underlying cause (represented
by its message) plus the captured stack snapshot (raw bytes). -/
structure exception where
  error : String
  stack : List Nat
deriving DecidableEq, Repr

/-- The universe of values `AsException` type-switches over: Go `nil`,
a value already implementing `Exception`, an `error` cause, and any
other value (carried here by its `%v` formatting). -/
inductive GoValue where
  | goNil
  | goExc (e : exception)
  | goError (msg : String)
  | goOther (formatted : String)
deriving DecidableEq, Repr

/-- `AsException(e, stack)` from `exception.go`: `nil` stays `nil`, an
`Exception` is returned unchanged, an `error` is wrapped with the given
stack, anything else is formatted into a synthetic cause and wrapped. -/
def AsException : GoValue → List Nat → Option exception
  | .goNil, _ => none
  | .goExc err, _ => some err
  | .goError msg, stack => some ⟨msg, stack⟩
  | .goOther formatted, stack => some ⟨formatted, stack⟩

/-- Re-inject `AsException`'s result as a Go value (a `nil` interface
or a value implementing `Exception`), for composing calls. -/
def toGoValue : Option exception → GoValue
  | none => .goNil
  | some e => .goExc e

/-! ## Listener lifecycle (`bootstrap.go`) -/

/-- Transport options as an opaque token (their parsing lives in the
`transport` package, a collaborator). -/
structure TOptions where
  token : Nat
deriving DecidableEq, Repr

/-- The `listener` struct fields that `Sync` touches: the url, the
parsed options and the acceptor (`none` = Go `nil`, i.e. no acceptor
opened yet; an acceptor is identified by a `Nat` handle). -/
structure listener where
  url : String
  options : Option TOptions
  acceptor : Option Nat
deriving DecidableEq, Repr

/-- The external collaborators consulted by `Sync`:
`transport.ParseOptions` and `transportFactory.Listen` outcomes. -/
structure SyncEnv where
  parse : String → Except String TOptions
  listen : TOptions → Except String Nat

/-- Outcome of the phase of `listener.Sync` before the accept loop
(the loop itself is blocking I/O on the acceptor and out of scope):
either the duplicate-call error, a parse or listen failure, or entry
into the accept loop with the acceptor recorded on the listener. -/
inductive SyncOutcome where
  | duplicateSync
  | parseFailed (e : String)
  | listenFailed (e : String)
  | enteredAcceptLoop (l : listener)
deriving DecidableEq, Repr

/-- `listener.Sync` up to the accept loop: fail immediately with
`duplicate call Listener:Sync` when an acceptor already exists,
otherwise parse the options and open the acceptor via the transport
factory. -/
def syncStart (env : SyncEnv) (l : listener) : SyncOutcome :=
  if l.acceptor.isSome then .duplicateSync
  else
    match env.parse l.url with
    | .error e => .parseFailed e
    | .ok opts =>
      match env.listen opts with
      | .error e => .listenFailed e
      | .ok acc => .enteredAcceptLoop { l with options := some opts, acceptor := some acc }

/-! ## The structural invariant

`WF p c` says that `c` is the list of node ids from the head sentinel
to the tail sentinel inclusive, with consistent forward and backward
links, `nil`-terminated at both ends, `size` equal to its length, and
all ids allocated (below `count`) and distinct. -/

/-- Adjacent-node consistency: `a.next == b` and `b.prev == a`. -/
def linked (p : pipeline) (a b : Nat) : Prop :=
  (p.nodes a).next = some b ∧ (p.nodes b).prev = some a

/-- The structural invariant of a pipeline, witnessed by its chain of
node ids from head to tail inclusive. -/
structure WF (p : pipeline) (c : List Nat) : Prop where
  head_first : c.head? = some p.head
  tail_last : c.getLast? = some p.tail
  chain : List.Chain' (linked p) c
  head_prev : (p.nodes p.head).prev = none
  tail_next : (p.nodes p.tail).next = none
  size_eq : p.size = c.length
  two_le : 2 ≤ c.length
  bounded : ∀ i ∈ c, i < p.count
  nodup : c.Nodup

/-- A pipeline satisfying the structural invariant for some chain. -/
def wellFormed (p : pipeline) : Prop := ∃ c, WF p c

lemma wf_fresh : WF NewPipelineWith [0, 1] := by
  refine ⟨rfl, rfl, ?_, rfl, rfl, rfl, by decide, ?_, by decide⟩
  · exact List.chain'_cons.2 ⟨⟨rfl, rfl⟩, List.chain'_singleton 1⟩
  · intro i hi
    simp only [List.mem_cons, List.not_mem_nil, or_false] at hi
    rcases hi with rfl | rfl <;> decide

lemma mem_of_getLast? {l : List Nat} {x : Nat} (h : l.getLast? = some x) : x ∈ l := by
  rcases List.mem_getLast?_eq_getLast (show x ∈ l.getLast? from h ▸ rfl) with ⟨hne, hx⟩
  exact hx ▸ List.getLast_mem hne

lemma length_le_of_nodup_bounded {c : List Nat} {n : Nat} (hnd : c.Nodup)
    (hb : ∀ i ∈ c, i < n) : c.length ≤ n := by
  classical
  have h1 : c.toFinset.card = c.length := List.toFinset_card_of_nodup hnd
  have h2 : c.toFinset ⊆ Finset.range n := by
    intro x hx
    simp only [List.mem_toFinset] at hx
    exact Finset.mem_range.2 (hb x hx)
  have h3 := Finset.card_le_card h2
  rw [h1, Finset.card_range] at h3
  exact h3

/-- Chains only read the heap at their member ids, so two pipelines
agreeing there have the same chains. -/
lemma chain'_congr_nodes {p q : pipeline} :
    ∀ {c : List Nat}, (∀ i ∈ c, q.nodes i = p.nodes i) →
      List.Chain' (linked p) c → List.Chain' (linked q) c
  | [], _, _ => List.chain'_nil
  | [a], _, _ => List.chain'_singleton a
  | a :: b :: t, hag, hch => by
    rcases List.chain'_cons.1 hch with ⟨hab, ht⟩
    refine List.chain'_cons.2
      ⟨?_, chain'_congr_nodes (fun i hi => hag i (List.mem_cons_of_mem a hi)) ht⟩
    have ha := hag a (by simp)
    have hb := hag b (by simp)
    exact ⟨by rw [ha]; exact hab.1, by rw [hb]; exact hab.2⟩

/-- Heap contents after one splice step: the fresh node carries `h` and
points at `cur` and `nxt`; `cur` gains the fresh node as `next`; `nxt`
gains it as `prev`; every other id is untouched. -/
lemma insertAfterOne_nodes_apply {p : pipeline} {cur nxt : Nat} (h : Handler)
    (hnx : (p.nodes cur).next = some nxt) (hc : cur < p.count) (hn : nxt < p.count)
    (hcn : cur ≠ nxt) (i : Nat) :
    (insertAfterOne p cur h).nodes i =
      if i = p.count then ⟨h, some cur, some nxt⟩
      else if i = cur then { p.nodes cur with next := some p.count }
      else if i = nxt then { p.nodes nxt with prev := some p.count }
      else p.nodes i := by
  have hne1 : cur ≠ p.count := Nat.ne_of_lt hc
  have hne2 : nxt ≠ p.count := Nat.ne_of_lt hn
  unfold insertAfterOne
  simp only [hnx, Option.getD_some, Function.update_apply, hne1, hne2, if_false]
  by_cases h1 : i = p.count
  · subst h1
    simp [Ne.symm hne1, Ne.symm hne2, Function.update_apply]
  · by_cases h2 : i = cur
    · subst h2
      simp [h1, hcn, hne1, Function.update_apply]
    · by_cases h3 : i = nxt
      · subst h3
        simp [h1, Ne.symm hcn, hne2, Function.update_apply, hcn]
      · simp [h1, h2, h3, Function.update_apply]

lemma insertAfterOne_misc (p : pipeline) (cur : Nat) (h : Handler) :
    (insertAfterOne p cur h).count = p.count + 1 ∧
    (insertAfterOne p cur h).size = p.size + 1 ∧
    (insertAfterOne p cur h).head = p.head ∧
    (insertAfterOne p cur h).tail = p.tail ∧
    (insertAfterOne p cur h).channel = p.channel :=
  ⟨rfl, rfl, rfl, rfl, rfl⟩

/-- Splicing a fresh node after a non-tail chain member preserves the
invariant: the new chain is the old one with the fresh id inserted
between `cur` and its successor, and the fresh node carries the given
handler. -/
lemma WF_insertAfterOne {p : pipeline} {xs ys : List Nat} {cur nxt : Nat} (h : Handler)
    (hwf : WF p (xs ++ cur :: nxt :: ys)) :
    WF (insertAfterOne p cur h) (xs ++ cur :: p.count :: nxt :: ys) ∧
    ((insertAfterOne p cur h).nodes p.count).handler = h := by
  obtain ⟨hhead, hlast, hchain, hhp, htn, hsz, h2le, hbnd, hnd⟩ := hwf
  have hcur_mem : cur ∈ xs ++ cur :: nxt :: ys := by simp
  have hnxt_mem : nxt ∈ xs ++ cur :: nxt :: ys := by simp
  have hc : cur < p.count := hbnd cur hcur_mem
  have hn : nxt < p.count := hbnd nxt hnxt_mem
  rcases List.nodup_append.1 hnd with ⟨ndxs, ndrest, disj⟩
  rcases List.nodup_cons.1 ndrest with ⟨hcur_rest, ndrest2⟩
  rcases List.nodup_cons.1 ndrest2 with ⟨hnxt_ys, ndys⟩
  have hcn : cur ≠ nxt := fun e => hcur_rest (by simp [e])
  have hcur_xs : cur ∉ xs := fun hx => disj hx (by simp)
  have hnxt_xs : nxt ∉ xs := fun hx => disj hx (by simp)
  have hcur_ys : cur ∉ ys := fun hy => hcur_rest (by simp [hy])
  rcases List.chain'_append.1 hchain with ⟨hchxs, hchrest, hbdry⟩
  rcases List.chain'_cons.1 hchrest with ⟨hlcn, hchnys⟩
  have hnx : (p.nodes cur).next = some nxt := hlcn.1
  have napp := insertAfterOne_nodes_apply h hnx hc hn hcn
  set q := insertAfterOne p cur h with hq
  have hqcount : q.nodes p.count = ⟨h, some cur, some nxt⟩ := by
    rw [napp]
    simp
  have hqcur : q.nodes cur = { p.nodes cur with next := some p.count } := by
    rw [napp]
    simp [Nat.ne_of_lt hc]
  have hqnxt : q.nodes nxt = { p.nodes nxt with prev := some p.count } := by
    rw [napp]
    simp [Nat.ne_of_lt hn, Ne.symm hcn]
  have hqother : ∀ i, i ≠ cur → i ≠ nxt → i ≠ p.count → q.nodes i = p.nodes i := by
    intro i h1 h2 h3
    rw [napp]
    simp [h1, h2, h3]
  have hag_xs : ∀ i ∈ xs, q.nodes i = p.nodes i := fun i hi =>
    hqother i (fun e => hcur_xs (e ▸ hi)) (fun e => hnxt_xs (e ▸ hi))
      (Nat.ne_of_lt (hbnd i (by simp [hi])))
  have hag_ys : ∀ i ∈ ys, q.nodes i = p.nodes i := fun i hi =>
    hqother i (fun e => hcur_ys (e ▸ hi)) (fun e => hnxt_ys (e ▸ hi))
      (Nat.ne_of_lt (hbnd i (by simp [hi])))
  have hhead' : (xs ++ cur :: p.count :: nxt :: ys).head? = some p.head := by
    cases xs with
    | nil => simpa using hhead
    | cons a t => simpa using hhead
  have hlast' : (xs ++ cur :: p.count :: nxt :: ys).getLast? = some p.tail := by
    rw [List.getLast?_append_cons, List.getLast?_cons_cons, List.getLast?_cons_cons]
    rw [List.getLast?_append_cons, List.getLast?_cons_cons] at hlast
    exact hlast
  have hchain' : List.Chain' (linked q) (xs ++ cur :: p.count :: nxt :: ys) := by
    refine List.Chain'.append (chain'_congr_nodes hag_xs hchxs) ?_ ?_
    · refine List.chain'_cons.2 ⟨⟨by rw [hqcur], by rw [hqcount]⟩,
        List.chain'_cons.2 ⟨⟨by rw [hqcount], by rw [hqnxt]⟩, ?_⟩⟩
      cases ys with
      | nil => exact List.chain'_singleton nxt
      | cons y t =>
        rcases List.chain'_cons.1 hchnys with ⟨hny, hyt⟩
        refine List.chain'_cons.2 ⟨⟨?_, ?_⟩, ?_⟩
        · rw [hqnxt]
          exact hny.1
        · rw [hag_ys y (by simp)]
          exact hny.2
        · exact chain'_congr_nodes (fun i hi => hag_ys i (by simp [hi])) hyt
    · intro x hx b hb
      simp only [List.head?_cons, Option.mem_def, Option.some.injEq] at hb
      subst hb
      have hx_mem : x ∈ xs := mem_of_getLast? hx
      have hlk : linked p x cur := hbdry x hx cur (by simp)
      exact ⟨by rw [hag_xs x hx_mem]; exact hlk.1, by rw [hqcur]; exact hlk.2⟩
  have hhp' : (q.nodes p.head).prev = none := by
    cases xs with
    | nil =>
      have he : p.head = cur := by simpa using hhead.symm
      rw [he, hqcur]
      exact he ▸ hhp
    | cons a t =>
      have ha : p.head = a := by simpa using hhead.symm
      have he : q.nodes p.head = p.nodes p.head := by
        apply hag_xs
        rw [ha]
        simp
      rw [he]
      exact hhp
  have hmem_tail : p.tail ∈ nxt :: ys := by
    apply mem_of_getLast?
    rw [List.getLast?_append_cons, List.getLast?_cons_cons] at hlast
    exact hlast
  have htn' : (q.nodes p.tail).next = none := by
    rcases List.mem_cons.1 hmem_tail with e | hty
    · rw [e, hqnxt]
      exact e ▸ htn
    · rw [hag_ys p.tail hty]
      exact htn
  have hsz' : q.size = (xs ++ cur :: p.count :: nxt :: ys).length := by
    have : q.size = p.size + 1 := rfl
    rw [this, hsz]
    simp only [List.length_append, List.length_cons]
    omega
  have h2le' : 2 ≤ (xs ++ cur :: p.count :: nxt :: ys).length := by
    simp only [List.length_append, List.length_cons]
    omega
  have hbnd' : ∀ i ∈ xs ++ cur :: p.count :: nxt :: ys, i < q.count := by
    intro i hi
    have hqc : q.count = p.count + 1 := rfl
    rw [hqc]
    simp only [List.mem_append, List.mem_cons] at hi
    rcases hi with hi | rfl | rfl | rfl | hi
    · exact Nat.lt_succ_of_lt (hbnd i (by simp [hi]))
    · exact Nat.lt_succ_of_lt hc
    · exact Nat.lt_succ_self _
    · exact Nat.lt_succ_of_lt hn
    · exact Nat.lt_succ_of_lt (hbnd i (by simp [hi]))
  have hnd' : (xs ++ cur :: p.count :: nxt :: ys).Nodup := by
    refine List.nodup_append.2 ⟨ndxs, ?_, ?_⟩
    · refine List.nodup_cons.2 ⟨?_, List.nodup_cons.2 ⟨?_, ndrest2⟩⟩
      · simp only [List.mem_cons, not_or]
        exact ⟨Nat.ne_of_lt hc, hcn, hcur_ys⟩
      · intro hmem
        have hmm : p.count ∈ xs ++ cur :: nxt :: ys := by
          simp only [List.mem_append, List.mem_cons]
          rcases List.mem_cons.1 hmem with e | hy
          · exact Or.inr (Or.inr (Or.inl e))
          · exact Or.inr (Or.inr (Or.inr hy))
        exact Nat.lt_irrefl _ (hbnd _ hmm)
    · intro a ha hmem
      rcases List.mem_cons.1 hmem with e | hmem2
      · exact disj ha (by simp [e])
      rcases List.mem_cons.1 hmem2 with e | hmem3
      · exact Nat.lt_irrefl _ (e ▸ hbnd a (by simp [ha]))
      rcases List.mem_cons.1 hmem3 with e | hmem4
      · exact disj ha (by simp [e])
      · exact disj ha (by simp [hmem4])
  exact ⟨⟨hhead', hlast', hchain', hhp', htn', hsz', h2le', hbnd', hnd'⟩, by rw [hqcount]⟩

lemma walkNext_zero (p : pipeline) (cur : Nat) : walkNext p cur 0 = cur := rfl

lemma walkNext_succ (p : pipeline) (cur n : Nat) :
    walkNext p cur (n + 1) = walkNext p (((p.nodes cur).next).getD 0) n := rfl

lemma visitFrom_succ (step : Nat → Option Nat) (cur fuel : Nat) :
    visitFrom step cur (fuel + 1) =
      cur :: (match step cur with
        | none => []
        | some nxt => visitFrom step nxt fuel) := rfl

lemma checkHandlerFrom_ok : ∀ (n : Nat) (hs : List Handler),
    (∀ h ∈ hs, hasCapability h = true) → checkHandlerFrom n hs = .ok ()
  | _, [], _ => rfl
  | n, h :: rest, hall => by
    unfold checkHandlerFrom
    rw [if_pos (hall h (by simp))]
    exact checkHandlerFrom_ok (n + 1) rest (fun g hg => hall g (by simp [hg]))

lemma checkHandler_ok (hs : List Handler) (hall : ∀ h ∈ hs, hasCapability h = true) :
    checkHandler hs = .ok () :=
  checkHandlerFrom_ok 0 hs hall

lemma checkHandlerFrom_err : ∀ (n : Nat) (hs : List Handler) (h0 : Handler), h0 ∈ hs →
    hasCapability h0 = false →
    ∃ i g, hs.get? i = some g ∧ hasCapability g = false ∧
      checkHandlerFrom n hs = .error (.unrecognizedHandler (n + i) g.tag)
  | _, [], h0, hmem, _ => absurd hmem (by simp)
  | n, h :: rest, h0, hmem, hbad => by
    by_cases hcap : hasCapability h
    · have hmem2 : h0 ∈ rest := by
        rcases List.mem_cons.1 hmem with e | hm
        · rw [e] at hbad
          rw [hbad] at hcap
          exact absurd hcap (by simp)
        · exact hm
      obtain ⟨i, g, hg, hgc, hrec⟩ := checkHandlerFrom_err (n + 1) rest h0 hmem2 hbad
      refine ⟨i + 1, g, by simpa using hg, hgc, ?_⟩
      unfold checkHandlerFrom
      rw [if_pos hcap]
      rw [show n + (i + 1) = n + 1 + i from by omega]
      exact hrec
    · refine ⟨0, h, rfl, by simpa using hcap, ?_⟩
      unfold checkHandlerFrom
      rw [if_neg hcap]
      simp

lemma checkHandler_err (hs : List Handler) (h0 : Handler) (hmem : h0 ∈ hs)
    (hbad : hasCapability h0 = false) :
    ∃ i g, hs.get? i = some g ∧ hasCapability g = false ∧
      checkHandler hs = .error (.unrecognizedHandler i g.tag) := by
  obtain ⟨i, g, hg, hgc, he⟩ := checkHandlerFrom_err 0 hs h0 hmem hbad
  exact ⟨i, g, hg, hgc, by simpa using he⟩

lemma AddFirst_ok_elim {p p2 : pipeline} {hs : List Handler} (h : AddFirst p hs = .ok p2) :
    checkHandler hs = .ok () ∧ p2 = hs.foldl addFirst p := by
  unfold AddFirst at h
  cases hc : checkHandler hs with
  | error e =>
    rw [hc] at h
    exact Except.noConfusion (show (Except.error e : Except PipeErr pipeline) = .ok p2 from h)
  | ok u =>
    cases u
    rw [hc] at h
    have h3 : Except.ok (hs.foldl addFirst p) = Except.ok p2 := h
    injection h3 with h4
    exact ⟨rfl, h4.symm⟩

lemma AddLast_ok_elim {p p2 : pipeline} {hs : List Handler} (h : AddLast p hs = .ok p2) :
    checkHandler hs = .ok () ∧ p2 = hs.foldl addLast p := by
  unfold AddLast at h
  cases hc : checkHandler hs with
  | error e =>
    rw [hc] at h
    exact Except.noConfusion (show (Except.error e : Except PipeErr pipeline) = .ok p2 from h)
  | ok u =>
    cases u
    rw [hc] at h
    have h3 : Except.ok (hs.foldl addLast p) = Except.ok p2 := h
    injection h3 with h4
    exact ⟨rfl, h4.symm⟩

lemma AddHandler_ok_elim {p p2 : pipeline} {hs : List Handler} {position : Int}
    (h : AddHandler p position hs = .ok p2) :
    checkHandler hs = .ok () ∧ ¬((p.size : Int) ≤ position) ∧
      ((position = -1 ∨ position = (p.size : Int) - 1) → AddLast p hs = .ok p2) ∧
      (¬(position = -1 ∨ position = (p.size : Int) - 1) →
        p2 = insertAfterLoop p (walkNext p p.head position.toNat) hs) := by
  unfold AddHandler at h
  cases hc : checkHandler hs with
  | error e =>
    rw [hc] at h
    exact Except.noConfusion (show (Except.error e : Except PipeErr pipeline) = .ok p2 from h)
  | ok u =>
    cases u
    rw [hc] at h
    have h2 : (if (p.size : Int) ≤ position
        then (throw (PipeErr.invalidPosition position) : Except PipeErr pipeline)
        else if position = -1 ∨ position = (p.size : Int) - 1 then AddLast p hs
        else pure (insertAfterLoop p (walkNext p p.head position.toNat) hs)) = .ok p2 := h
    by_cases hge : (p.size : Int) ≤ position
    · rw [if_pos hge] at h2
      exact Except.noConfusion
        (show (Except.error (PipeErr.invalidPosition position) : Except PipeErr pipeline)
          = .ok p2 from h2)
    · rw [if_neg hge] at h2
      by_cases hor : position = -1 ∨ position = (p.size : Int) - 1
      · rw [if_pos hor] at h2
        exact ⟨rfl, hge, fun _ => h2, fun hn => absurd hor hn⟩
      · rw [if_neg hor] at h2
        have h3 : Except.ok (insertAfterLoop p (walkNext p p.head position.toNat) hs)
            = Except.ok p2 := h2
        injection h3 with h4
        exact ⟨rfl, hge, fun ho => absurd ho hor, fun _ => h4.symm⟩

lemma AddHandler_invalid (p : pipeline) (hs : List Handler) (position : Int)
    (hch : checkHandler hs = .ok ()) (hge : (p.size : Int) ≤ position) :
    AddHandler p position hs = .error (.invalidPosition position) := by
  unfold AddHandler
  rw [hch]
  show (if (p.size : Int) ≤ position then _ else _) = _
  rw [if_pos hge]
  rfl

lemma AddHandler_eq_addLast (p : pipeline) (hs : List Handler) (position : Int)
    (hpos : position = -1 ∨ position = (p.size : Int) - 1)
    (hlt : ¬((p.size : Int) ≤ position)) :
    AddHandler p position hs = AddLast p hs := by
  unfold AddHandler
  cases hc : checkHandler hs with
  | error e =>
    unfold AddLast
    rw [hc]
    rfl
  | ok u =>
    cases u
    show (if (p.size : Int) ≤ position
        then (throw (PipeErr.invalidPosition position) : Except PipeErr pipeline)
        else if position = -1 ∨ position = (p.size : Int) - 1 then AddLast p hs
        else pure (insertAfterLoop p (walkNext p p.head position.toNat) hs)) = AddLast p hs
    rw [if_neg hlt, if_pos hpos]

lemma AddHandler_ok_insert_eq (p : pipeline) (hs : List Handler) (position : Int)
    (hch : checkHandler hs = .ok ()) (hlt : ¬((p.size : Int) ≤ position))
    (hnor : ¬(position = -1 ∨ position = (p.size : Int) - 1)) :
    AddHandler p position hs = .ok (insertAfterLoop p (walkNext p p.head position.toNat) hs) := by
  unfold AddHandler
  rw [hch]
  show (if (p.size : Int) ≤ position then _ else _) = _
  rw [if_neg hlt, if_neg hnor]
  rfl

lemma size_foldl_addFirst : ∀ (hs : List Handler) (p : pipeline),
    (hs.foldl addFirst p).size = p.size + hs.length
  | [], _ => rfl
  | h :: rest, p => by
    rw [List.foldl_cons, size_foldl_addFirst rest (addFirst p h)]
    show p.size + 1 + rest.length = p.size + (rest.length + 1)
    omega

lemma size_foldl_addLast : ∀ (hs : List Handler) (p : pipeline),
    (hs.foldl addLast p).size = p.size + hs.length
  | [], _ => rfl
  | h :: rest, p => by
    rw [List.foldl_cons, size_foldl_addLast rest (addLast p h)]
    show p.size + 1 + rest.length = p.size + (rest.length + 1)
    omega

lemma size_insertAfterLoop : ∀ (hs : List Handler) (p : pipeline) (cur : Nat),
    (insertAfterLoop p cur hs).size = p.size + hs.length
  | [], _, _ => rfl
  | h :: rest, p, cur => by
    show (insertAfterLoop (insertAfterOne p cur h) p.count rest).size = p.size + (rest.length + 1)
    rw [size_insertAfterLoop rest (insertAfterOne p cur h) p.count]
    show p.size + 1 + rest.length = p.size + (rest.length + 1)
    omega

lemma handler_update_with_next (f : Nat → handlerContext) (a : Nat) (v : Option Nat) (i : Nat) :
    ((Function.update f a { f a with next := v }) i).handler = (f i).handler := by
  by_cases h : i = a
  · subst h
    simp
  · simp [Function.update_apply, h]

lemma handler_update_with_prev (f : Nat → handlerContext) (a : Nat) (v : Option Nat) (i : Nat) :
    ((Function.update f a { f a with prev := v }) i).handler = (f i).handler := by
  by_cases h : i = a
  · subst h
    simp
  · simp [Function.update_apply, h]

lemma insertAfterOne_handler_lt (p : pipeline) (cur : Nat) (h : Handler) {i : Nat}
    (hi : i < p.count) :
    ((insertAfterOne p cur h).nodes i).handler = (p.nodes i).handler := by
  simp only [insertAfterOne]
  rw [handler_update_with_prev, handler_update_with_next]
  simp [Function.update_apply, Nat.ne_of_lt hi]

lemma insertAfterLoop_handler_lt : ∀ (hs : List Handler) (p : pipeline) (cur i : Nat),
    i < p.count → ((insertAfterLoop p cur hs).nodes i).handler = (p.nodes i).handler
  | [], _, _, _, _ => rfl
  | h :: rest, p, cur, i, hi => by
    show ((insertAfterLoop (insertAfterOne p cur h) p.count rest).nodes i).handler = _
    rw [insertAfterLoop_handler_lt rest (insertAfterOne p cur h) p.count i
      (Nat.lt_succ_of_lt hi)]
    exact insertAfterOne_handler_lt p cur h hi

/-- The insertion loop of `AddHandler` splices the batch between `cur`
and its successor, preserving the batch's relative order. -/
lemma WF_insertAfterLoop : ∀ (hs : List Handler) (p : pipeline) (xs ys : List Nat)
    (cur nxt : Nat), WF p (xs ++ cur :: nxt :: ys) →
    ∃ ids, WF (insertAfterLoop p cur hs) (xs ++ cur :: (ids ++ nxt :: ys)) ∧
      ids.map (fun i => ((insertAfterLoop p cur hs).nodes i).handler) = hs ∧
      ids.length = hs.length
  | [], p, xs, ys, cur, nxt, hwf => ⟨[], by simpa using hwf, rfl, rfl⟩
  | h :: rest, p, xs, ys, cur, nxt, hwf => by
    obtain ⟨hwf1, hh⟩ := WF_insertAfterOne h hwf
    have hwf1' : WF (insertAfterOne p cur h) ((xs ++ [cur]) ++ p.count :: nxt :: ys) := by
      have he : (xs ++ [cur]) ++ p.count :: nxt :: ys = xs ++ cur :: p.count :: nxt :: ys := by
        simp
      rw [he]
      exact hwf1
    obtain ⟨ids, hwf2, hmap, hlen⟩ :=
      WF_insertAfterLoop rest (insertAfterOne p cur h) (xs ++ [cur]) ys p.count nxt hwf1'
    refine ⟨p.count :: ids, ?_, ?_, by simp [hlen]⟩
    · show WF (insertAfterLoop (insertAfterOne p cur h) p.count rest) _
      have he2 : xs ++ cur :: ((p.count :: ids) ++ nxt :: ys)
          = (xs ++ [cur]) ++ p.count :: (ids ++ nxt :: ys) := by simp
      rw [he2]
      exact hwf2
    · show ((p.count :: ids).map fun i =>
        ((insertAfterLoop (insertAfterOne p cur h) p.count rest).nodes i).handler) = h :: rest
      rw [List.map_cons]
      have hhead : ((insertAfterLoop (insertAfterOne p cur h) p.count rest).nodes
          p.count).handler = h := by
        rw [insertAfterLoop_handler_lt rest (insertAfterOne p cur h) p.count p.count
          (Nat.lt_succ_self p.count)]
        exact hh
      rw [hhead, hmap]

lemma WF_head_decomp {p : pipeline} {c : List Nat} (hwf : WF p c) :
    ∃ b ys, c = p.head :: b :: ys := by
  cases c with
  | nil => exact absurd hwf.head_first (by simp)
  | cons a rest =>
    have ha : a = p.head := by
      have h1 := hwf.head_first
      simpa using h1
    cases rest with
    | nil =>
      have h2 := hwf.two_le
      simp at h2
    | cons b ys => exact ⟨b, ys, by rw [ha]⟩

lemma wellFormed_addFirst {p : pipeline} (h : Handler) (hw : wellFormed p) :
    wellFormed (addFirst p h) := by
  obtain ⟨c, hwf⟩ := hw
  obtain ⟨b, ys, he⟩ := WF_head_decomp hwf
  rw [he] at hwf
  have hwf2 : WF p ([] ++ p.head :: b :: ys) := hwf
  exact ⟨_, (WF_insertAfterOne h hwf2).1⟩

lemma exists_last_two : ∀ {c : List Nat} {t : Nat}, c.getLast? = some t →
    2 ≤ c.length → ∃ xs s, c = xs ++ [s, t]
  | [], _, hlast, _ => by simp at hlast
  | [_], _, _, hlen => by simp at hlen
  | a :: b :: rest, t, hlast, _ => by
    cases rest with
    | nil =>
      have hb : b = t := by simpa using hlast
      exact ⟨[], a, by rw [hb]; rfl⟩
    | cons d rest2 =>
      have h1 : (b :: d :: rest2).getLast? = some t := by
        rw [List.getLast?_cons_cons] at hlast
        exact hlast
      obtain ⟨xs, s, he⟩ := exists_last_two h1 (by simp)
      refine ⟨a :: xs, s, ?_⟩
      rw [List.cons_append, ← he]

/-- `addLast` performs exactly the splice-after step at the node before
the tail (the two link writes land on distinct nodes, so the update
order does not matter). -/
lemma addLast_eq_insertAfterOne {p : pipeline} {s : Nat} (h : Handler)
    (hprev : (p.nodes p.tail).prev = some s) (hnext : (p.nodes s).next = some p.tail)
    (hst : s ≠ p.tail) (hsc : s < p.count) (htc : p.tail < p.count) :
    addLast p h = insertAfterOne p s h := by
  unfold addLast insertAfterOne
  rw [hprev, hnext]
  simp only [Option.getD_some]
  have hsn : s ≠ p.count := Nat.ne_of_lt hsc
  have htn : p.tail ≠ p.count := Nat.ne_of_lt htc
  congr 1
  funext i
  by_cases h1 : i = p.count
  · subst h1
    simp [Function.update_apply, Ne.symm hsn, Ne.symm htn]
  · by_cases h2 : i = s
    · subst h2
      simp [Function.update_apply, hsn, hst, htn, Ne.symm hst]
    · by_cases h3 : i = p.tail
      · subst h3
        simp [Function.update_apply, htn, Ne.symm hst, hst, hsn]
      · simp [Function.update_apply, h1, h2, h3]

lemma WF_addLast {p : pipeline} {c : List Nat} (h : Handler) (hwf : WF p c) :
    ∃ xs s, c = xs ++ [s, p.tail] ∧
      WF (addLast p h) (xs ++ [s, p.count, p.tail]) ∧
      ((addLast p h).nodes p.count).handler = h := by
  obtain ⟨xs, s, he⟩ := exists_last_two hwf.tail_last hwf.two_le
  rw [he] at hwf
  rcases List.chain'_append.1 hwf.chain with ⟨_, hrest, _⟩
  have hlk : linked p s p.tail := (List.chain'_cons.1 hrest).1
  have hst : s ≠ p.tail := by
    rcases List.nodup_append.1 hwf.nodup with ⟨_, nd2, _⟩
    intro e
    exact (List.nodup_cons.1 nd2).1 (by simp [e])
  have hsc : s < p.count := hwf.bounded s (by simp)
  have htc : p.tail < p.count := hwf.bounded p.tail (by simp)
  have heq := addLast_eq_insertAfterOne h hlk.2 hlk.1 hst hsc htc
  obtain ⟨hwf3, hh⟩ := WF_insertAfterOne h hwf
  rw [← heq] at hwf3 hh
  exact ⟨xs, s, he, hwf3, hh⟩

lemma wellFormed_addLast {p : pipeline} (h : Handler) (hw : wellFormed p) :
    wellFormed (addLast p h) := by
  obtain ⟨c, hwf⟩ := hw
  obtain ⟨xs, s, _, hwf2, _⟩ := WF_addLast h hwf
  exact ⟨_, hwf2⟩

lemma wellFormed_foldl_addFirst : ∀ (hs : List Handler) (p : pipeline),
    wellFormed p → wellFormed (hs.foldl addFirst p)
  | [], _, hw => hw
  | h :: rest, p, hw =>
    wellFormed_foldl_addFirst rest (addFirst p h) (wellFormed_addFirst h hw)

lemma wellFormed_foldl_addLast : ∀ (hs : List Handler) (p : pipeline),
    wellFormed p → wellFormed (hs.foldl addLast p)
  | [], _, hw => hw
  | h :: rest, p, hw =>
    wellFormed_foldl_addLast rest (addLast p h) (wellFormed_addLast h hw)

lemma wellFormed_size_two_le {p : pipeline} (hw : wellFormed p) : 2 ≤ p.size := by
  obtain ⟨c, hwf⟩ := hw
  rw [hwf.size_eq]
  exact hwf.two_le

lemma chain'_get?_next {p : pipeline} : ∀ {c : List Nat}, List.Chain' (linked p) c →
    ∀ (i x y : Nat), c.get? i = some x → c.get? (i + 1) = some y → (p.nodes x).next = some y
  | [], _, _, _, _, hx, _ => by simp at hx
  | [_], _, i, _, _, hx, hy => by
    cases i with
    | zero => simp at hy
    | succ j => simp at hx
  | _ :: b :: t, hch, i, x, y, hx, hy => by
    rcases List.chain'_cons.1 hch with ⟨hab, ht⟩
    cases i with
    | zero =>
      have hxa := by simpa using hx
      have hyb := by simpa using hy
      rw [← hxa, ← hyb]
      exact hab.1
    | succ j =>
      exact chain'_get?_next ht j x y (by simpa using hx) (by simpa using hy)

lemma walkNext_get? {p : pipeline} {c : List Nat} (hch : List.Chain' (linked p) c) :
    ∀ (k i x y : Nat), c.get? i = some x → c.get? (i + k) = some y → walkNext p x k = y
  | 0, i, x, y, hx, hy => by
    rw [Nat.add_zero, hx] at hy
    rw [walkNext_zero]
    exact Option.some.inj hy
  | k + 1, i, x, y, hx, hy => by
    have hlen : i + (k + 1) < c.length := by
      rcases List.get?_eq_some.1 hy with ⟨hl, _⟩
      exact hl
    have h1 : i + 1 < c.length := by omega
    obtain ⟨z, hz⟩ : ∃ z, c.get? (i + 1) = some z := ⟨_, List.get?_eq_get h1⟩
    have hnext := chain'_get?_next hch i x z hx hz
    rw [walkNext_succ, hnext]
    simp only [Option.getD_some]
    refine walkNext_get? hch k (i + 1) z y hz ?_
    rw [show i + 1 + k = i + (k + 1) from by omega]
    exact hy

lemma decomp_at : ∀ (c : List Nat) (k : Nat), k + 1 < c.length →
    ∃ x y, c.get? k = some x ∧ c.get? (k + 1) = some y ∧
      c = c.take k ++ x :: y :: c.drop (k + 2)
  | [], _, hk => by simp at hk
  | [_], _, hk => by simp at hk
  | a :: b :: t, 0, _ => ⟨a, b, rfl, rfl, rfl⟩
  | a :: b :: t, k + 1, hk => by
    have hk2 : k + 1 < (b :: t).length := by
      simp only [List.length_cons] at hk ⊢
      omega
    obtain ⟨x, y, h1, h2, he⟩ := decomp_at (b :: t) k hk2
    refine ⟨x, y, by simpa using h1, by simpa using h2, ?_⟩
    show a :: (b :: t) = (a :: b :: t).take (k + 1) ++ x :: y :: (a :: b :: t).drop (k + 1 + 2)
    rw [List.take_succ_cons]
    rw [show (k + 1 + 2) = (k + 2) + 1 from by omega]
    rw [List.drop_succ_cons]
    rw [List.cons_append]
    rw [← he]

/-- The non-delegating branch of `AddHandler`: the walk lands on the
chain node at index `position`, and the batch is spliced between it and
its successor. -/
lemma insert_case_WF {p : pipeline} {c : List Nat} (hwf : WF p c) (position : Int)
    (hs : List Handler) (hlt : ¬((p.size : Int) ≤ position))
    (hnor : ¬(position = -1 ∨ position = (p.size : Int) - 1)) :
    ∃ x y ids, c.get? position.toNat = some x ∧ c.get? (position.toNat + 1) = some y ∧
      walkNext p p.head position.toNat = x ∧
      WF (insertAfterLoop p x hs)
        (c.take position.toNat ++ x :: (ids ++ y :: c.drop (position.toNat + 2))) ∧
      ids.map (fun i => ((insertAfterLoop p x hs).nodes i).handler) = hs ∧
      ids.length = hs.length := by
  have hsz := hwf.size_eq
  have h2 := hwf.two_le
  have hkk : position.toNat + 1 < c.length := by omega
  obtain ⟨x, y, hgx, hgy, hdecomp⟩ := decomp_at c position.toNat hkk
  have h0 : c.get? 0 = some p.head := by
    rw [List.get?_zero]
    exact hwf.head_first
  have hwalk : walkNext p p.head position.toNat = x :=
    walkNext_get? hwf.chain position.toNat 0 p.head x h0 (by simpa using hgx)
  have hwf2 : WF p (c.take position.toNat ++ x :: y :: c.drop (position.toNat + 2)) := by
    rw [← hdecomp]
    exact hwf
  obtain ⟨ids, hwf3, hmap, hlen⟩ := WF_insertAfterLoop hs p (c.take position.toNat)
    (c.drop (position.toNat + 2)) x y hwf2
  exact ⟨x, y, ids, hgx, hgy, hwalk, hwf3, hmap, hlen⟩

/-! ## Theorems -/

/-- Concrete handlers used as witnesses: an inbound-only, an
outbound-only, and an active-only handler, plus one implementing no
capability at all. -/
def hA : Handler := ⟨2, false, true, false, false, false, false⟩

def hB : Handler := ⟨3, false, false, true, false, false, false⟩

def hC : Handler := ⟨4, true, false, false, false, false, false⟩

def hNone : Handler := ⟨5, false, false, false, false, false, false⟩

/-- C7: `AsException` maps nil to nil; returns a value that is already
an `Exception` unchanged, so wrapping is idempotent; wraps an
error-like cause with the given stack; and wraps any other value as a
formatted synthetic cause with the given stack. -/
theorem asException_normalization :
    (∀ stack : List Nat, AsException .goNil stack = none) ∧
    (∀ (e : exception) (stack : List Nat), AsException (.goExc e) stack = some e) ∧
    (∀ (msg : String) (stack : List Nat), AsException (.goError msg) stack = some ⟨msg, stack⟩) ∧
    (∀ (v : String) (stack : List Nat), AsException (.goOther v) stack = some ⟨v, stack⟩) ∧
    (∀ (val : GoValue) (s s2 : List Nat),
      AsException (toGoValue (AsException val s)) s2 = AsException val s) := by
  refine ⟨fun _ => rfl, fun _ _ => rfl, fun _ _ => rfl, fun _ _ => rfl, fun val s s2 => ?_⟩
  cases val <;> rfl

/-- C5: `ServeChannel` is a one-time attachment: the first call records
the channel and instructs it to begin serving; any subsequent call
fails with the configuration error while the attached channel stays
unchanged. -/
theorem serveChannel_one_time (p : pipeline) (ch : Nat) (hfree : p.channel = none) :
    ∃ q : pipeline, ServeChannel p ch = .ok (q, [ch]) ∧ q.channel = some ch ∧
      ∀ ch2 : Nat, ServeChannel q ch2 = .error .alreadyAttached := by
  refine ⟨{ p with channel := some ch }, ?_, rfl, fun ch2 => ?_⟩
  · simp [ServeChannel, hfree]
  · simp [ServeChannel]

/-- Witness for C5 at a concrete unattached pipeline. -/
theorem serveChannel_one_time_witness :
    NewPipelineWith.channel = none ∧
    ∃ q : pipeline, ServeChannel NewPipelineWith 7 = .ok (q, [7]) ∧ q.channel = some 7 ∧
      ∀ ch2 : Nat, ServeChannel q ch2 = .error .alreadyAttached :=
  ⟨rfl, serveChannel_one_time NewPipelineWith 7 rfl⟩

/-- C8: once an acceptor exists for a listener, any `Sync` call fails
immediately with the duplicate-Sync error, independently of the parse
and listen collaborators (so no options are parsed and no second
acceptor is opened); a first `Sync` on an acceptor-less listener that
parses and listens successfully enters the accept loop with the
acceptor recorded. -/
theorem sync_single_use (l : listener) (a : Nat) (hacc : l.acceptor = some a) :
    (∀ env : SyncEnv, syncStart env l = .duplicateSync) ∧
    (∀ (l0 : listener) (env : SyncEnv) (opts : TOptions) (acc : Nat),
      l0.acceptor = none → env.parse l0.url = .ok opts → env.listen opts = .ok acc →
      syncStart env l0 =
        .enteredAcceptLoop { l0 with options := some opts, acceptor := some acc }) := by
  constructor
  · intro env
    simp [syncStart, hacc]
  · intro l0 env opts acc h0 hp hl
    simp [syncStart, h0, hp, hl]

/-- A stub environment whose collaborators always fail (used only to
instantiate witnesses; the duplicate-Sync error fires before either is
consulted). -/
def envStub : SyncEnv := ⟨fun _ => .error "parse", fun _ => .error "listen"⟩

/-- Witness for C8 at a concrete listener that already holds an
acceptor. -/
theorem sync_single_use_witness :
    ({ url := "tcp://h", options := none, acceptor := some 3 } : listener).acceptor = some 3 ∧
    syncStart envStub { url := "tcp://h", options := none, acceptor := some 3 } =
      .duplicateSync :=
  ⟨rfl, (sync_single_use { url := "tcp://h", options := none, acceptor := some 3 } 3 rfl).1
    envStub⟩

/-- C2: a fresh pipeline has `Size = 2`; after `AddLast h1 h2 h3` the
size is 5, positions 1..3 hold `h1,h2,h3` in that order, and positions
0 and 4 are the head and tail sentinel contexts. -/
theorem fresh_addLast_size_and_order (h1 h2 h3 : Handler)
    (c1 : hasCapability h1 = true) (c2 : hasCapability h2 = true)
    (c3 : hasCapability h3 = true) :
    Size NewPipelineWith = 2 ∧
    ∃ p3 : pipeline, AddLast NewPipelineWith [h1, h2, h3] = .ok p3 ∧
      Size p3 = 5 ∧
      handlerAt p3 1 = some h1 ∧ handlerAt p3 2 = some h2 ∧ handlerAt p3 3 = some h3 ∧
      ContextAt p3 0 = some p3.head ∧ (p3.nodes p3.head).handler = headHandler ∧
      ContextAt p3 4 = some p3.tail ∧ (p3.nodes p3.tail).handler = tailHandler := by
  have hch : checkHandler [h1, h2, h3] = .ok () := by
    simp [checkHandler, checkHandlerFrom, c1, c2, c3]
  refine ⟨rfl, addLast (addLast (addLast NewPipelineWith h1) h2) h3,
    ?_, rfl, rfl, rfl, rfl, rfl, rfl, rfl, rfl⟩
  unfold AddLast
  rw [hch]
  rfl

/-- Witness for C2 at concrete handlers. -/
theorem fresh_addLast_size_and_order_witness :
    hasCapability hA = true ∧ hasCapability hB = true ∧ hasCapability hC = true ∧
    (Size NewPipelineWith = 2 ∧
    ∃ p3 : pipeline, AddLast NewPipelineWith [hA, hB, hC] = .ok p3 ∧
      Size p3 = 5 ∧
      handlerAt p3 1 = some hA ∧ handlerAt p3 2 = some hB ∧ handlerAt p3 3 = some hC ∧
      ContextAt p3 0 = some p3.head ∧ (p3.nodes p3.head).handler = headHandler ∧
      ContextAt p3 4 = some p3.tail ∧ (p3.nodes p3.tail).handler = tailHandler) :=
  ⟨rfl, rfl, rfl, fresh_addLast_size_and_order hA hB hC rfl rfl rfl⟩

set_option maxHeartbeats 1000000 in
/-- C9: a multi-handler `AddFirst` batch lands in reverse order in the
chain: each handler of the batch is spliced immediately after the head
sentinel in turn, so after `AddFirst h1 h2 h3` on a fresh pipeline
positions 1..3 hold `h3,h2,h1`. -/
theorem addFirst_batch_reversed (h1 h2 h3 : Handler)
    (c1 : hasCapability h1 = true) (c2 : hasCapability h2 = true)
    (c3 : hasCapability h3 = true) :
    (∀ (p : pipeline) (h : Handler), addFirst p h = insertAfterOne p p.head h) ∧
    ∃ p3 : pipeline, AddFirst NewPipelineWith [h1, h2, h3] = .ok p3 ∧
      Size p3 = 5 ∧
      handlerAt p3 1 = some h3 ∧ handlerAt p3 2 = some h2 ∧ handlerAt p3 3 = some h1 := by
  have hch : checkHandler [h1, h2, h3] = .ok () := by
    simp [checkHandler, checkHandlerFrom, c1, c2, c3]
  refine ⟨fun _ _ => rfl, addFirst (addFirst (addFirst NewPipelineWith h1) h2) h3,
    ?_, rfl, rfl, rfl, rfl⟩
  unfold AddFirst
  rw [hch]
  rfl

/-- Witness for C9 at concrete handlers. -/
theorem addFirst_batch_reversed_witness :
    hasCapability hA = true ∧ hasCapability hB = true ∧ hasCapability hC = true ∧
    ((∀ (p : pipeline) (h : Handler), addFirst p h = insertAfterOne p p.head h) ∧
    ∃ p3 : pipeline, AddFirst NewPipelineWith [hA, hB, hC] = .ok p3 ∧
      Size p3 = 5 ∧
      handlerAt p3 1 = some hC ∧ handlerAt p3 2 = some hB ∧ handlerAt p3 3 = some hA) :=
  ⟨rfl, rfl, rfl, addFirst_batch_reversed hA hB hC rfl rfl rfl⟩

/-- C10: a position ≤ -2 is not rejected (only `-1` and
`position ≥ size` are): `ContextAt` returns the head sentinel context
(the node at index 0) instead of the not-found result, and `AddHandler`
does not fail but inserts right after the head sentinel, exactly as
position 0 would. -/
theorem negative_position_acts_as_zero (p : pipeline) (position : Int)
    (hs : List Handler) (hneg : position ≤ -2) (hsize : 2 ≤ p.size)
    (hch : checkHandler hs = .ok ()) :
    ContextAt p position = some p.head ∧
    ContextAt p 0 = some p.head ∧
    AddHandler p position hs = AddHandler p 0 hs ∧
    AddHandler p position hs = .ok (insertAfterLoop p p.head hs) := by
  have hsz : (2 : Int) ≤ (p.size : Int) := by exact_mod_cast hsize
  have hnle : ¬ ((p.size : Int) ≤ position) := by omega
  have hnor : ¬ (position = -1 ∨ position = (p.size : Int) - 1) := by omega
  have htn : position.toNat = 0 := by omega
  have hnle0 : ¬ ((p.size : Int) ≤ 0) := by omega
  have hnor0 : ¬ ((0 : Int) = -1 ∨ (0 : Int) = (p.size : Int) - 1) := by omega
  have hca : ContextAt p position = some p.head := by
    unfold ContextAt
    rw [if_neg (by omega), htn]
    exact rfl
  have hah : AddHandler p position hs = .ok (insertAfterLoop p p.head hs) := by
    unfold AddHandler
    rw [hch]
    show (if (p.size : Int) ≤ position then _ else _) = _
    rw [if_neg hnle, if_neg hnor, htn]
    rfl
  have hah0 : AddHandler p 0 hs = .ok (insertAfterLoop p p.head hs) := by
    unfold AddHandler
    rw [hch]
    show (if (p.size : Int) ≤ 0 then _ else _) = _
    rw [if_neg hnle0, if_neg hnor0]
    rfl
  refine ⟨hca, ?_, by rw [hah, hah0], hah⟩
  unfold ContextAt
  rw [if_neg (by omega)]
  rfl

/-- Witness for C10 at a fresh pipeline, position `-2`. -/
theorem negative_position_acts_as_zero_witness :
    (-2 : Int) ≤ -2 ∧ 2 ≤ NewPipelineWith.size ∧ checkHandler [hA] = .ok () ∧
    (ContextAt NewPipelineWith (-2) = some NewPipelineWith.head ∧
    ContextAt NewPipelineWith 0 = some NewPipelineWith.head ∧
    AddHandler NewPipelineWith (-2) [hA] = AddHandler NewPipelineWith 0 [hA] ∧
    AddHandler NewPipelineWith (-2) [hA] =
      .ok (insertAfterLoop NewPipelineWith NewPipelineWith.head [hA])) :=
  ⟨by decide, by decide, rfl,
    negative_position_acts_as_zero NewPipelineWith (-2) [hA] (by decide) (by decide) rfl⟩

lemma visitFrom_eq {step : Nat → Option Nat} :
    ∀ (c : List Nat) (a : Nat) (fuel : Nat),
      List.Chain' (fun u v => step u = some v) (a :: c) →
      step ((a :: c).getLast (List.cons_ne_nil a c)) = none →
      (a :: c).length ≤ fuel →
      visitFrom step a fuel = a :: c
  | [], a, fuel, _, hlast, hlen => by
    cases fuel with
    | zero => simp at hlen
    | succ f =>
      rw [visitFrom_succ]
      have ha : step a = none := by simpa using hlast
      rw [ha]
  | b :: c, a, fuel, hch, hlast, hlen => by
    cases fuel with
    | zero => simp at hlen
    | succ f =>
      rcases List.chain'_cons.1 hch with ⟨hab, hbc⟩
      have hl2 : step ((b :: c).getLast (List.cons_ne_nil b c)) = none := by
        rw [List.getLast_cons (List.cons_ne_nil b c)] at hlast
        exact hlast
      have hlen2 : (b :: c).length ≤ f := by
        simp only [List.length_cons] at hlen ⊢
        omega
      have hrec := visitFrom_eq c b f hbc hl2 hlen2
      rw [visitFrom_succ, hab]
      show a :: visitFrom step b f = a :: b :: c
      rw [hrec]

/-- Under the invariant, the inbound traversal from head visits exactly
the chain, head to tail. -/
lemma fireRead_visits {p : pipeline} {c : List Nat} (hwf : WF p c) (msg : Nat) :
    FireChannelReadVisits p msg = c := by
  obtain ⟨b, ys, he⟩ := WF_head_decomp hwf
  have hchain : List.Chain' (fun u v => (p.nodes u).next = some v) c :=
    hwf.chain.imp (fun _ _ hl => hl.1)
  have hfuel : c.length ≤ p.count := length_le_of_nodup_bounded hwf.nodup hwf.bounded
  have hgl : c.getLast? = some p.tail := hwf.tail_last
  rw [he] at hchain hgl hfuel
  have hne := List.cons_ne_nil p.head (b :: ys)
  have hlast : (p.nodes ((p.head :: b :: ys).getLast hne)).next = none := by
    have h2 : (p.head :: b :: ys).getLast? = some ((p.head :: b :: ys).getLast hne) :=
      List.getLast?_eq_getLast_of_ne_nil hne
    rw [h2] at hgl
    rw [Option.some.inj hgl]
    exact hwf.tail_next
  show visitFrom (fun i => (p.nodes i).next) p.head p.count = c
  rw [he]
  exact visitFrom_eq (b :: ys) p.head p.count hchain hlast hfuel

/-- Under the invariant, the outbound traversal from tail visits
exactly the reversed chain, tail to head. -/
lemma fireWrite_visits {p : pipeline} {c : List Nat} (hwf : WF p c) (msg : Nat) :
    FireChannelWriteVisits p msg = c.reverse := by
  have hchainR : List.Chain' (fun u v => (p.nodes u).prev = some v) c.reverse := by
    rw [List.chain'_reverse]
    exact hwf.chain.imp (fun _ _ hl => hl.2)
  obtain ⟨rest, hrev⟩ : ∃ rest, c.reverse = p.tail :: rest := by
    cases hr : c.reverse with
    | nil =>
      have hnil : c = [] := by simpa using congrArg List.reverse hr
      exact absurd (hnil ▸ hwf.two_le) (by simp)
    | cons a rest =>
      have ha : a = p.tail := by
        have h1 : c.reverse.head? = some a := by rw [hr]; rfl
        rw [List.head?_reverse, hwf.tail_last] at h1
        exact (Option.some.inj h1).symm
      exact ⟨rest, by rw [ha]⟩
  have hfuel : c.reverse.length ≤ p.count := by
    rw [List.length_reverse]
    exact length_le_of_nodup_bounded hwf.nodup hwf.bounded
  have hne := List.cons_ne_nil p.tail rest
  have hlast : (p.nodes ((p.tail :: rest).getLast hne)).prev = none := by
    have h1 : (p.tail :: rest).getLast? = some p.head := by
      rw [← hrev, List.getLast?_reverse]
      exact hwf.head_first
    have h2 : (p.tail :: rest).getLast? = some ((p.tail :: rest).getLast hne) :=
      List.getLast?_eq_getLast_of_ne_nil hne
    rw [h2] at h1
    rw [Option.some.inj h1]
    exact hwf.head_prev
  rw [hrev] at hchainR hfuel
  show visitFrom (fun i => (p.nodes i).prev) p.tail p.count = c.reverse
  rw [hrev]
  exact visitFrom_eq rest p.tail p.count hchainR hlast hfuel

set_option maxHeartbeats 2000000 in
/-- C1: `FireChannelRead` starts at the head sentinel and visits the
contexts in head-to-tail chain order; `FireChannelWrite` starts at the
tail sentinel and visits them in tail-to-head order, for every pipeline
satisfying the structural invariant and every message; on the
instrumented chain `[A,B,C]` the recorded read sequence is
`[head,A,B,C,tail]` and the write sequence `[tail,C,B,A,head]`. -/
theorem fire_traversal_order :
    (∀ (p : pipeline) (c : List Nat) (msg : Nat), WF p c →
      FireChannelReadVisits p msg = c ∧ FireChannelWriteVisits p msg = c.reverse) ∧
    (∀ (A B C : Handler) (msg : Nat),
      hasCapability A = true → hasCapability B = true → hasCapability C = true →
      ∃ p3, AddLast NewPipelineWith [A, B, C] = .ok p3 ∧
        visitHandlerTags p3 (FireChannelReadVisits p3 msg) =
          [headHandler.tag, A.tag, B.tag, C.tag, tailHandler.tag] ∧
        visitHandlerTags p3 (FireChannelWriteVisits p3 msg) =
          [tailHandler.tag, C.tag, B.tag, A.tag, headHandler.tag]) := by
  constructor
  · intro p c msg hwf
    exact ⟨fireRead_visits hwf msg, fireWrite_visits hwf msg⟩
  · intro A B C msg cA cB cC
    have hch : checkHandler [A, B, C] = .ok () := by
      simp [checkHandler, checkHandlerFrom, cA, cB, cC]
    refine ⟨addLast (addLast (addLast NewPipelineWith A) B) C, ?_, rfl, rfl⟩
    unfold AddLast
    rw [hch]
    rfl

/-- Witness for C1 at concrete handlers and message `0`. -/
theorem fire_traversal_order_witness :
    hasCapability hA = true ∧
    ∃ p3, AddLast NewPipelineWith [hA, hB, hC] = .ok p3 ∧
      visitHandlerTags p3 (FireChannelReadVisits p3 0) =
        [headHandler.tag, hA.tag, hB.tag, hC.tag, tailHandler.tag] ∧
      visitHandlerTags p3 (FireChannelWriteVisits p3 0) =
        [tailHandler.tag, hC.tag, hB.tag, hA.tag, headHandler.tag] :=
  ⟨rfl, fire_traversal_order.2 hA hB hC 0 rfl rfl rfl⟩

/-- C3: `AddHandler` at position `-1` or `size-1` is `AddLast`; a
position `≥ size` fails with the configuration error (nothing is
spliced, the error is raised before any mutation); for
`0 ≤ position < size-1` the walk stops at the chain node of index
`position` and the batch is spliced right after it, in order. -/
theorem addHandler_position_semantics (p : pipeline) (c : List Nat) (hs : List Handler)
    (position : Int) (hwf : WF p c) (hch : checkHandler hs = .ok ()) :
    (AddHandler p (-1) hs = AddLast p hs) ∧
    (AddHandler p ((p.size : Int) - 1) hs = AddLast p hs) ∧
    ((p.size : Int) ≤ position → AddHandler p position hs = .error (.invalidPosition position)) ∧
    (0 ≤ position → position < (p.size : Int) - 1 →
      ∃ x y ids, c.get? position.toNat = some x ∧ c.get? (position.toNat + 1) = some y ∧
        AddHandler p position hs = .ok (insertAfterLoop p x hs) ∧
        WF (insertAfterLoop p x hs)
          (c.take position.toNat ++ x :: (ids ++ y :: c.drop (position.toNat + 2))) ∧
        ids.map (fun i => ((insertAfterLoop p x hs).nodes i).handler) = hs) := by
  refine ⟨?_, ?_, ?_, ?_⟩
  · exact AddHandler_eq_addLast p hs (-1) (Or.inl rfl) (by omega)
  · exact AddHandler_eq_addLast p hs ((p.size : Int) - 1) (Or.inr rfl) (by omega)
  · intro hge
    exact AddHandler_invalid p hs position hch hge
  · intro hpos hlt2
    have hlt : ¬((p.size : Int) ≤ position) := by omega
    have hnor : ¬(position = -1 ∨ position = (p.size : Int) - 1) := by omega
    obtain ⟨x, y, ids, hgx, hgy, hwalk, hwf3, hmap, _⟩ := insert_case_WF hwf position hs hlt hnor
    refine ⟨x, y, ids, hgx, hgy, ?_, hwf3, hmap⟩
    rw [AddHandler_ok_insert_eq p hs position hch hlt hnor, hwalk]

/-- Witness for C3 at a fresh pipeline, a one-handler batch and
position 5. -/
theorem addHandler_position_semantics_witness :
    checkHandler [hA] = .ok () ∧
    (AddHandler NewPipelineWith (-1) [hA] = AddLast NewPipelineWith [hA]) ∧
    (AddHandler NewPipelineWith ((NewPipelineWith.size : Int) - 1) [hA]
      = AddLast NewPipelineWith [hA]) ∧
    ((NewPipelineWith.size : Int) ≤ 5 →
      AddHandler NewPipelineWith 5 [hA] = .error (.invalidPosition 5)) ∧
    (0 ≤ (5 : Int) → (5 : Int) < (NewPipelineWith.size : Int) - 1 →
      ∃ x y ids, [0, 1].get? (5 : Int).toNat = some x ∧
        [0, 1].get? ((5 : Int).toNat + 1) = some y ∧
        AddHandler NewPipelineWith 5 [hA] = .ok (insertAfterLoop NewPipelineWith x [hA]) ∧
        WF (insertAfterLoop NewPipelineWith x [hA])
          ([0, 1].take (5 : Int).toNat ++ x ::
            (ids ++ y :: [0, 1].drop ((5 : Int).toNat + 2))) ∧
        ids.map (fun i => ((insertAfterLoop NewPipelineWith x [hA]).nodes i).handler) = [hA]) :=
  ⟨rfl, addHandler_position_semantics NewPipelineWith [0, 1] [hA] 5 wf_fresh rfl⟩

/-- C4: a batch containing a handler with none of the six capabilities
makes `AddFirst`, `AddLast` and `AddHandler` fail with the
configuration error naming the first offending index and handler
identity, before anything is spliced (the error result carries no
mutated pipeline); an all-valid batch is spliced entirely, `size`
growing by one per handler. -/
theorem handler_batch_validation (p : pipeline) (hs : List Handler) (position : Int) :
    ((∃ h0 ∈ hs, hasCapability h0 = false) →
      ∃ i g, hs.get? i = some g ∧ hasCapability g = false ∧
        AddFirst p hs = .error (.unrecognizedHandler i g.tag) ∧
        AddLast p hs = .error (.unrecognizedHandler i g.tag) ∧
        AddHandler p position hs = .error (.unrecognizedHandler i g.tag)) ∧
    ((∀ h0 ∈ hs, hasCapability h0 = true) →
      (∃ p1, AddFirst p hs = .ok p1 ∧ p1.size = p.size + hs.length) ∧
      (∃ p2, AddLast p hs = .ok p2 ∧ p2.size = p.size + hs.length) ∧
      (position < (p.size : Int) →
        ∃ p3, AddHandler p position hs = .ok p3 ∧ p3.size = p.size + hs.length)) := by
  constructor
  · rintro ⟨h0, hmem, hbad⟩
    obtain ⟨i, g, hg, hgc, herr⟩ := checkHandler_err hs h0 hmem hbad
    refine ⟨i, g, hg, hgc, ?_, ?_, ?_⟩
    · unfold AddFirst
      rw [herr]
      rfl
    · unfold AddLast
      rw [herr]
      rfl
    · unfold AddHandler
      rw [herr]
      rfl
  · intro hall
    have hch : checkHandler hs = .ok () := checkHandler_ok hs hall
    refine ⟨⟨hs.foldl addFirst p, ?_, size_foldl_addFirst hs p⟩,
      ⟨hs.foldl addLast p, ?_, size_foldl_addLast hs p⟩, ?_⟩
    · unfold AddFirst
      rw [hch]
      rfl
    · unfold AddLast
      rw [hch]
      rfl
    · intro hplt
      by_cases hor : position = -1 ∨ position = (p.size : Int) - 1
      · refine ⟨hs.foldl addLast p, ?_, size_foldl_addLast hs p⟩
        rw [AddHandler_eq_addLast p hs position hor (by omega)]
        unfold AddLast
        rw [hch]
        rfl
      · refine ⟨insertAfterLoop p (walkNext p p.head position.toNat) hs, ?_, ?_⟩
        · exact AddHandler_ok_insert_eq p hs position hch (by omega) hor
        · exact size_insertAfterLoop hs p (walkNext p p.head position.toNat)

/-- Witness for C4: the capability-less handler `hNone` at index 0. -/
theorem handler_batch_validation_witness :
    (∃ h0 ∈ [hNone], hasCapability h0 = false) ∧
    (∃ i g, [hNone].get? i = some g ∧ hasCapability g = false ∧
      AddFirst NewPipelineWith [hNone] = .error (.unrecognizedHandler i g.tag) ∧
      AddLast NewPipelineWith [hNone] = .error (.unrecognizedHandler i g.tag) ∧
      AddHandler NewPipelineWith 0 [hNone] = .error (.unrecognizedHandler i g.tag)) :=
  ⟨⟨hNone, by simp, rfl⟩,
    (handler_batch_validation NewPipelineWith [hNone] 0).1 ⟨hNone, by simp, rfl⟩⟩

/-- C6: every successful mutating operation (`AddFirst`, `AddLast`,
`AddHandler`) preserves the structural invariant: the result is again a
well-formed doubly linked chain (contiguous links with consistent
back-links from head to tail, `size` equal to the number of chain
nodes) and its size is at least 2. -/
theorem mutators_preserve_invariant (p p2 : pipeline) (hs : List Handler) (position : Int)
    (hw : wellFormed p)
    (hop : AddFirst p hs = .ok p2 ∨ AddLast p hs = .ok p2 ∨ AddHandler p position hs = .ok p2) :
    wellFormed p2 ∧ 2 ≤ p2.size := by
  have key : wellFormed p2 := by
    rcases hop with hf | hl | hh
    · obtain ⟨_, he⟩ := AddFirst_ok_elim hf
      rw [he]
      exact wellFormed_foldl_addFirst hs p hw
    · obtain ⟨_, he⟩ := AddLast_ok_elim hl
      rw [he]
      exact wellFormed_foldl_addLast hs p hw
    · obtain ⟨hch, hge, hLastCase, hInsCase⟩ := AddHandler_ok_elim hh
      by_cases hor : position = -1 ∨ position = (p.size : Int) - 1
      · obtain ⟨_, he⟩ := AddLast_ok_elim (hLastCase hor)
        rw [he]
        exact wellFormed_foldl_addLast hs p hw
      · obtain ⟨c, hwf⟩ := hw
        obtain ⟨x, y, ids, _, _, hwalk, hwf3, _, _⟩ := insert_case_WF hwf position hs hge hor
        rw [hInsCase hor, hwalk]
        exact ⟨_, hwf3⟩
  exact ⟨key, wellFormed_size_two_le key⟩

/-- Witness for C6: `AddFirst` of one handler on the fresh pipeline. -/
theorem mutators_preserve_invariant_witness :
    wellFormed NewPipelineWith ∧
    AddFirst NewPipelineWith [hA] = .ok (addFirst NewPipelineWith hA) ∧
    (wellFormed (addFirst NewPipelineWith hA) ∧ 2 ≤ (addFirst NewPipelineWith hA).size) :=
  ⟨⟨[0, 1], wf_fresh⟩, rfl,
    mutators_preserve_invariant NewPipelineWith (addFirst NewPipelineWith hA) [hA] 0
      ⟨[0, 1], wf_fresh⟩ (Or.inl rfl)⟩

end GoNetty
